import Mathlib

/-!
# Verification of the conv2d index-transformation kernels

This file gives a shallow embedding of the four CUDA kernels in
`src/tensor_ops/conv2d/conv2d.cu` of the `dfdx` repository:

* `unfold_input_into_patches`   (forward unfold, im2col)
* `unfold_output_into_patches`  (backward unfold)
* `transpose_and_broadcast_filters`
* `sum_transposed_filters`

Each kernel is a data-parallel map over a flat index space: one thread per
flat index `i`.  The two unfold kernels write at most the single destination
element `patches[i]`, so a kernel launch is modelled as a pointwise function
of the destination index.  The transpose-broadcast kernel scatters each
thread's value into `batch` destination slots, so it is modelled as a
sequential fold of single-element writes (the writes of distinct threads are
disjoint, which is proved below, so any execution order gives the same
buffer).

Tensor buffers are flat functions `Nat → Int`: the kernels move and add
element values without any float-specific behaviour relevant to the claims,
so the `float` element type is idealised as exact integers.  All index
arithmetic is carried out in `Nat`, which models the exact (unbounded)
values; a second, `_m`-suffixed "machine" version of the unfold kernels
reproduces the C evaluation with explicit truncation `% 2^64` (`size_t`)
and `% 2^32` (`unsigned int`) at every operation, for the overflow claims.
-/

/-- The convolution geometry descriptor, a verbatim translation of
`struct Conv2DOp` (all fields are `size_t` in the source, modelled as
unbounded naturals here; the machine-level theorems add explicit
`< 2^64` bounds where they matter). -/
structure Conv2DOp where
  stride : Nat
  padding : Nat
  kernel : Nat
  batch : Nat
  chan_in : Nat
  chan_out : Nat
  h_in : Nat
  h_out : Nat
  w_in : Nat
  w_out : Nat
deriving Repr, DecidableEq

namespace Conv2D

/-- Total element count of the forward patches tensor
`(batch, chan_in, kernel, kernel, h_out, w_out)`, as computed at the top of
`unfold_input_into_patches`. -/
def patchesNumelFwd (op : Conv2DOp) : Nat :=
  op.batch * op.chan_in * op.kernel * op.kernel * op.h_out * op.w_out

/-- Total element count of the backward patches tensor
`(batch, chan_out, kernel, kernel, h_in, w_in)`, as computed at the top of
`unfold_output_into_patches`. -/
def patchesNumelBwd (op : Conv2DOp) : Nat :=
  op.batch * op.chan_out * op.kernel * op.kernel * op.h_in * op.w_in

/-- Element count of the input image tensor `(batch, chan_in, h_in, w_in)`. -/
def imageNumel (op : Conv2DOp) : Nat :=
  op.batch * op.chan_in * op.h_in * op.w_in

/-- Element count of the output tensor `(batch, chan_out, h_out, w_out)`. -/
def imageOutNumel (op : Conv2DOp) : Nat :=
  op.batch * op.chan_out * op.h_out * op.w_out

/-- The per-thread body of `unfold_input_into_patches`: given the geometry
and the flat thread index `i`, returns `some i_image` when the thread
executes `patches[i] = image[i_image]`, and `none` when it returns early
(index past the element count, padding underflow, or source coordinate
beyond the image extent).  Translated line by line from the source. -/
def unfold_input_write (op : Conv2DOp) (i : Nat) : Option Nat :=
  if i ≥ patchesNumelFwd op then none else
  let ow := i % op.w_out
  let idx := i / op.w_out
  let oh := idx % op.h_out
  let idx := idx / op.h_out
  let k2 := idx % op.kernel
  let idx := idx / op.kernel
  let k1 := idx % op.kernel
  let idx := idx / op.kernel
  let c := idx % op.chan_in
  let idx := idx / op.chan_in
  let b := idx % op.batch
  let y_plus_p := oh * op.stride + k1
  if y_plus_p < op.padding then none else
  let y := y_plus_p - op.padding
  if y ≥ op.h_in then none else
  let x_plus_p := ow * op.stride + k2
  if x_plus_p < op.padding then none else
  let x := x_plus_p - op.padding
  if x ≥ op.w_in then none else
  some (b * (op.chan_in * op.h_in * op.w_in) + c * (op.h_in * op.w_in)
        + y * op.w_in + x)

/-- One launch of `unfold_input_into_patches`: each thread owns exactly one
destination element (`patches[i]`), so the resulting buffer is pointwise:
the image value at the computed source offset if the thread writes, the
pre-existing destination value otherwise. -/
def unfold_input_into_patches (op : Conv2DOp) (image patches : Nat → Int) :
    Nat → Int := fun i =>
  match unfold_input_write op i with
  | some src => image src
  | none => patches i

/-- The per-thread body of `unfold_output_into_patches`: given the geometry
and the flat thread index `i`, returns `some image_i` when the thread
executes `patches[i] = image_out[image_i]`, and `none` when any guard
(bounds, underflow, stride misalignment, output extent) fires.
Translated line by line from the source. -/
def unfold_output_write (op : Conv2DOp) (i : Nat) : Option Nat :=
  if i ≥ patchesNumelBwd op then none else
  let x := i % op.w_in
  let idx := i / op.w_in
  let y := idx % op.h_in
  let idx := idx / op.h_in
  let k2 := idx % op.kernel
  let idx := idx / op.kernel
  let k1 := idx % op.kernel
  let idx := idx / op.kernel
  let o := idx % op.chan_out
  let idx := idx / op.chan_out
  let b := idx % op.batch
  let oh0 := y + op.padding
  if oh0 < k1 then none else
  let oh1 := oh0 - k1
  if oh1 % op.stride ≠ 0 then none else
  let oh := oh1 / op.stride
  if oh ≥ op.h_out then none else
  let ow0 := x + op.padding
  if ow0 < k2 then none else
  let ow1 := ow0 - k2
  if ow1 % op.stride ≠ 0 then none else
  let ow := ow1 / op.stride
  if ow ≥ op.w_out then none else
  some (b * (op.chan_out * op.h_out * op.w_out) + o * (op.h_out * op.w_out)
        + oh * op.w_out + ow)

/-- One launch of `unfold_output_into_patches`, pointwise like the forward
kernel (each thread owns exactly one destination element). -/
def unfold_output_into_patches (op : Conv2DOp) (image_out patches : Nat → Int) :
    Nat → Int := fun i =>
  match unfold_output_write op i with
  | some src => image_out src
  | none => patches i

/-- Row-major flattening of a six-dimensional coordinate against dimension
sizes `(d1,...,d6)` (outermost first); used to name destination coordinates
of the patches tensors in the theorems. -/
def flat6 (d2 d3 d4 d5 d6 : Nat) (a1 a2 a3 a4 a5 a6 : Nat) : Nat :=
  ((((a1 * d2 + a2) * d3 + a3) * d4 + a4) * d5 + a5) * d6 + a6

/-- Row-major flattening of a four-dimensional coordinate against dimension
sizes `(d1,...,d4)` (outermost first). -/
def flat4 (d2 d3 d4 : Nat) (a1 a2 a3 a4 : Nat) : Nat :=
  ((a1 * d2 + a2) * d3 + a3) * d4 + a4

theorem flat_mod (q r n : Nat) (h : r < n) : (q * n + r) % n = r := by
  rw [Nat.add_comm, Nat.add_mul_mod_self_right, Nat.mod_eq_of_lt h]

theorem flat_div (q r n : Nat) (h : r < n) : (q * n + r) / n = q := by
  rw [Nat.mul_comm, Nat.mul_add_div (by omega : 0 < n),
    Nat.div_eq_of_lt h, Nat.add_zero]

theorem flat_lt (q r Q n : Nat) (hq : q < Q) (hr : r < n) :
    q * n + r < Q * n := by
  have h1 : q * n + r < (q + 1) * n := by
    rw [Nat.succ_mul]; omega
  exact Nat.lt_of_lt_of_le h1 (Nat.mul_le_mul_right n hq)

/-- The successive `% / % / ...` decomposition performed by the kernels
recovers the coordinates of a row-major flattened six-dimensional index. -/
theorem flat6_decomp (d2 d3 d4 d5 d6 a1 a2 a3 a4 a5 a6 : Nat)
    (h2 : a2 < d2) (h3 : a3 < d3) (h4 : a4 < d4) (h5 : a5 < d5) (h6 : a6 < d6) :
    flat6 d2 d3 d4 d5 d6 a1 a2 a3 a4 a5 a6 % d6 = a6 ∧
    flat6 d2 d3 d4 d5 d6 a1 a2 a3 a4 a5 a6 / d6 % d5 = a5 ∧
    flat6 d2 d3 d4 d5 d6 a1 a2 a3 a4 a5 a6 / d6 / d5 % d4 = a4 ∧
    flat6 d2 d3 d4 d5 d6 a1 a2 a3 a4 a5 a6 / d6 / d5 / d4 % d3 = a3 ∧
    flat6 d2 d3 d4 d5 d6 a1 a2 a3 a4 a5 a6 / d6 / d5 / d4 / d3 % d2 = a2 ∧
    flat6 d2 d3 d4 d5 d6 a1 a2 a3 a4 a5 a6 / d6 / d5 / d4 / d3 / d2 = a1 := by
  unfold flat6
  rw [flat_div _ _ _ h6, flat_mod _ _ _ h6, flat_div _ _ _ h5, flat_mod _ _ _ h5,
    flat_div _ _ _ h4, flat_mod _ _ _ h4, flat_div _ _ _ h3, flat_mod _ _ _ h3,
    flat_div _ _ _ h2, flat_mod _ _ _ h2]
  exact ⟨rfl, rfl, rfl, rfl, rfl, rfl⟩

/-- A flattened six-dimensional coordinate with every component in range is
below the total element count. -/
theorem flat6_lt (d1 d2 d3 d4 d5 d6 a1 a2 a3 a4 a5 a6 : Nat)
    (h1 : a1 < d1) (h2 : a2 < d2) (h3 : a3 < d3) (h4 : a4 < d4)
    (h5 : a5 < d5) (h6 : a6 < d6) :
    flat6 d2 d3 d4 d5 d6 a1 a2 a3 a4 a5 a6 < d1 * d2 * d3 * d4 * d5 * d6 :=
  flat_lt _ _ _ _
    (flat_lt _ _ _ _
      (flat_lt _ _ _ _ (flat_lt _ _ _ _ (flat_lt _ _ _ _ h1 h2) h3) h4) h5) h6

theorem flat4_decomp (d2 d3 d4 a1 a2 a3 a4 : Nat)
    (h2 : a2 < d2) (h3 : a3 < d3) (h4 : a4 < d4) :
    flat4 d2 d3 d4 a1 a2 a3 a4 % d4 = a4 ∧
    flat4 d2 d3 d4 a1 a2 a3 a4 / d4 % d3 = a3 ∧
    flat4 d2 d3 d4 a1 a2 a3 a4 / d4 / d3 % d2 = a2 ∧
    flat4 d2 d3 d4 a1 a2 a3 a4 / d4 / d3 / d2 = a1 := by
  unfold flat4
  rw [flat_div _ _ _ h4, flat_mod _ _ _ h4, flat_div _ _ _ h3, flat_mod _ _ _ h3,
    flat_div _ _ _ h2, flat_mod _ _ _ h2]
  exact ⟨rfl, rfl, rfl, rfl⟩

theorem flat4_lt (d1 d2 d3 d4 a1 a2 a3 a4 : Nat)
    (h1 : a1 < d1) (h2 : a2 < d2) (h3 : a3 < d3) (h4 : a4 < d4) :
    flat4 d2 d3 d4 a1 a2 a3 a4 < d1 * d2 * d3 * d4 :=
  flat_lt _ _ _ _ (flat_lt _ _ _ _ (flat_lt _ _ _ _ h1 h2) h3) h4

theorem flat4_offset (d2 d3 d4 a1 a2 a3 a4 : Nat) :
    flat4 d2 d3 d4 a1 a2 a3 a4
      = a1 * (d2 * d3 * d4) + a2 * (d3 * d4) + a3 * d4 + a4 := by
  unfold flat4; ring

/-- `unfold_input_write` evaluated at the flattened destination coordinate
`(b, c, k1, k2, oh, ow)`: the decomposition recovers the coordinates and
the four guards reduce to the stated conditions on `oh·stride + k1` and
`ow·stride + k2`. -/
theorem unfold_input_write_flat (op : Conv2DOp) (b c k1 k2 oh ow : Nat)
    (hb : b < op.batch) (hc : c < op.chan_in) (hk1 : k1 < op.kernel)
    (hk2 : k2 < op.kernel) (hoh : oh < op.h_out) (how : ow < op.w_out) :
    unfold_input_write op
        (flat6 op.chan_in op.kernel op.kernel op.h_out op.w_out b c k1 k2 oh ow)
      = if oh * op.stride + k1 < op.padding then none
        else if oh * op.stride + k1 - op.padding ≥ op.h_in then none
        else if ow * op.stride + k2 < op.padding then none
        else if ow * op.stride + k2 - op.padding ≥ op.w_in then none
        else some (b * (op.chan_in * op.h_in * op.w_in) + c * (op.h_in * op.w_in)
          + (oh * op.stride + k1 - op.padding) * op.w_in
          + (ow * op.stride + k2 - op.padding)) := by
  obtain ⟨m6, m5, m4, m3, m2, m1⟩ :=
    flat6_decomp op.chan_in op.kernel op.kernel op.h_out op.w_out
      b c k1 k2 oh ow hc hk1 hk2 hoh how
  have hlt : ¬ (flat6 op.chan_in op.kernel op.kernel op.h_out op.w_out
      b c k1 k2 oh ow ≥ patchesNumelFwd op) :=
    Nat.not_le.mpr (flat6_lt op.batch _ _ _ _ _ _ _ _ _ _ _ hb hc hk1 hk2 hoh how)
  simp only [unfold_input_write, m6, m5, m4, m3, m2, m1, if_neg hlt,
    Nat.mod_eq_of_lt hb]

/-- C1: for every geometry descriptor and every flat destination coordinate
`(b, c, k1, k2, oh, ow)` of the forward patches tensor,
`unfold_input_into_patches` sets that element to the image element at batch
`b`, channel `c`, spatial position `y = oh·stride + k1 − padding`,
`x = ow·stride + k2 − padding` whenever `y ∈ [0, h_in)` and `x ∈ [0, w_in)`
(expressed over `Nat` as `padding ≤ oh·stride + k1` together with
`oh·stride + k1 − padding < h_in`, and symmetrically for `x`), and otherwise
performs no write, leaving the destination element at its pre-existing
value. -/
theorem unfold_input_into_patches_correct (op : Conv2DOp)
    (image patches : Nat → Int) (b c k1 k2 oh ow : Nat)
    (hb : b < op.batch) (hc : c < op.chan_in) (hk1 : k1 < op.kernel)
    (hk2 : k2 < op.kernel) (hoh : oh < op.h_out) (how : ow < op.w_out) :
    ((op.padding ≤ oh * op.stride + k1 ∧
        oh * op.stride + k1 - op.padding < op.h_in ∧
        op.padding ≤ ow * op.stride + k2 ∧
        ow * op.stride + k2 - op.padding < op.w_in) →
      unfold_input_into_patches op image patches
          (flat6 op.chan_in op.kernel op.kernel op.h_out op.w_out b c k1 k2 oh ow)
        = image (flat4 op.chan_in op.h_in op.w_in b c
            (oh * op.stride + k1 - op.padding)
            (ow * op.stride + k2 - op.padding))) ∧
    (¬ (op.padding ≤ oh * op.stride + k1 ∧
        oh * op.stride + k1 - op.padding < op.h_in ∧
        op.padding ≤ ow * op.stride + k2 ∧
        ow * op.stride + k2 - op.padding < op.w_in) →
      unfold_input_into_patches op image patches
          (flat6 op.chan_in op.kernel op.kernel op.h_out op.w_out b c k1 k2 oh ow)
        = patches
            (flat6 op.chan_in op.kernel op.kernel op.h_out op.w_out b c k1 k2 oh ow)) := by
  have hw := unfold_input_write_flat op b c k1 k2 oh ow hb hc hk1 hk2 hoh how
  rw [flat4_offset]
  unfold unfold_input_into_patches
  rw [hw]
  constructor
  · intro hcond
    rw [if_neg (by omega), if_neg (by omega), if_neg (by omega), if_neg (by omega)]
  · intro hcond
    split_ifs with g1 g2 g3 g4
    · rfl
    · rfl
    · rfl
    · rfl
    · omega

/-- A concrete example geometry: stride 1, padding 0, kernel 3, batch 1,
one input and one output channel, 5×5 input, 3×3 output. -/
def opEx : Conv2DOp := ⟨1, 0, 3, 1, 1, 1, 5, 3, 5, 3⟩

/-- Witness for `unfold_input_into_patches_correct` at the geometry `opEx`
and coordinate `(0,0,2,2,2,2)`: the patches element equals the image element
at `(0,0,4,4)`, matching the spec's concrete shape test. -/
theorem unfold_input_into_patches_correct_witness :
    unfold_input_into_patches opEx (fun j => (j : Int)) (fun _ => 0)
        (flat6 1 3 3 3 3 0 0 2 2 2 2)
      = (fun j => (j : Int)) (flat4 1 5 5 0 0 (2 * 1 + 2 - 0) (2 * 1 + 2 - 0)) :=
  (unfold_input_into_patches_correct opEx (fun j => (j : Int)) (fun _ => 0)
    0 0 2 2 2 2 (by decide) (by decide) (by decide) (by decide) (by decide)
    (by decide)).1 (by decide)

/-- `unfold_output_write` evaluated at the flattened destination coordinate
`(b, o, k1, k2, y, x)`: the decomposition recovers the coordinates and the
six guards reduce to the stated underflow / divisibility / extent conditions.
-/
theorem unfold_output_write_flat (op : Conv2DOp) (b o k1 k2 y x : Nat)
    (hb : b < op.batch) (ho : o < op.chan_out) (hk1 : k1 < op.kernel)
    (hk2 : k2 < op.kernel) (hy : y < op.h_in) (hx : x < op.w_in) :
    unfold_output_write op
        (flat6 op.chan_out op.kernel op.kernel op.h_in op.w_in b o k1 k2 y x)
      = if y + op.padding < k1 then none
        else if (y + op.padding - k1) % op.stride ≠ 0 then none
        else if (y + op.padding - k1) / op.stride ≥ op.h_out then none
        else if x + op.padding < k2 then none
        else if (x + op.padding - k2) % op.stride ≠ 0 then none
        else if (x + op.padding - k2) / op.stride ≥ op.w_out then none
        else some (b * (op.chan_out * op.h_out * op.w_out)
          + o * (op.h_out * op.w_out)
          + (y + op.padding - k1) / op.stride * op.w_out
          + (x + op.padding - k2) / op.stride) := by
  obtain ⟨m6, m5, m4, m3, m2, m1⟩ :=
    flat6_decomp op.chan_out op.kernel op.kernel op.h_in op.w_in
      b o k1 k2 y x ho hk1 hk2 hy hx
  have hlt : ¬ (flat6 op.chan_out op.kernel op.kernel op.h_in op.w_in
      b o k1 k2 y x ≥ patchesNumelBwd op) :=
    Nat.not_le.mpr (flat6_lt op.batch _ _ _ _ _ _ _ _ _ _ _ hb ho hk1 hk2 hy hx)
  simp only [unfold_output_write, m6, m5, m4, m3, m2, m1, if_neg hlt,
    Nat.mod_eq_of_lt hb]

/-- C2: for every geometry descriptor and every flat destination coordinate
`(b, o, k1, k2, y, x)` of the backward patches tensor,
`unfold_output_into_patches` writes the output-tensor element at
`oh = (y + padding − k1) / stride`, `ow = (x + padding − k2) / stride` if
and only if `y + padding ≥ k1`, `(y + padding − k1)` is exactly divisible by
`stride`, the resulting `oh < h_out`, and symmetrically for `ow`; if any
guard fails, no write occurs and the destination keeps its pre-existing
value (misaligned stride taps are skipped, never rounded). -/
theorem unfold_output_into_patches_correct (op : Conv2DOp)
    (image_out patches : Nat → Int) (b o k1 k2 y x : Nat)
    (hb : b < op.batch) (ho : o < op.chan_out) (hk1 : k1 < op.kernel)
    (hk2 : k2 < op.kernel) (hy : y < op.h_in) (hx : x < op.w_in) :
    ((k1 ≤ y + op.padding ∧ (y + op.padding - k1) % op.stride = 0 ∧
        (y + op.padding - k1) / op.stride < op.h_out ∧
        k2 ≤ x + op.padding ∧ (x + op.padding - k2) % op.stride = 0 ∧
        (x + op.padding - k2) / op.stride < op.w_out) →
      unfold_output_into_patches op image_out patches
          (flat6 op.chan_out op.kernel op.kernel op.h_in op.w_in b o k1 k2 y x)
        = image_out (flat4 op.chan_out op.h_out op.w_out b o
            ((y + op.padding - k1) / op.stride)
            ((x + op.padding - k2) / op.stride))) ∧
    (¬ (k1 ≤ y + op.padding ∧ (y + op.padding - k1) % op.stride = 0 ∧
        (y + op.padding - k1) / op.stride < op.h_out ∧
        k2 ≤ x + op.padding ∧ (x + op.padding - k2) % op.stride = 0 ∧
        (x + op.padding - k2) / op.stride < op.w_out) →
      unfold_output_into_patches op image_out patches
          (flat6 op.chan_out op.kernel op.kernel op.h_in op.w_in b o k1 k2 y x)
        = patches
            (flat6 op.chan_out op.kernel op.kernel op.h_in op.w_in b o k1 k2 y x)) := by
  have hw := unfold_output_write_flat op b o k1 k2 y x hb ho hk1 hk2 hy hx
  rw [flat4_offset]
  unfold unfold_output_into_patches
  rw [hw]
  constructor
  · intro hcond
    rw [if_neg (by omega), if_neg (by simp only [ne_eq, not_not]; omega),
      if_neg (by omega), if_neg (by omega),
      if_neg (by simp only [ne_eq, not_not]; omega), if_neg (by omega)]
  · intro hcond
    split_ifs with g1 g2 g3 g4 g5 g6
    · rfl
    · rfl
    · rfl
    · rfl
    · rfl
    · rfl
    · exact absurd ⟨by omega, by omega, by omega, by omega, by omega, by omega⟩ hcond

/-- Witness for `unfold_output_into_patches_correct` at the geometry `opEx`
and coordinate `(0,0,1,1,2,2)`: the guards pass and the patches element
equals the output element at `oh = ow = (2+0−1)/1 = 1`. -/
theorem unfold_output_into_patches_correct_witness :
    unfold_output_into_patches opEx (fun j => (j : Int)) (fun _ => 0)
        (flat6 1 3 3 5 5 0 0 1 1 2 2)
      = (fun j => (j : Int))
          (flat4 1 3 3 0 0 ((2 + 0 - 1) / 1) ((2 + 0 - 1) / 1)) :=
  (unfold_output_into_patches_correct opEx (fun j => (j : Int)) (fun _ => 0)
    0 0 1 1 2 2 (by decide) (by decide) (by decide) (by decide) (by decide)
    (by decide)).1 (by decide)

/-- The per-axis guard logic of `unfold_output_into_patches` (source lines
87–99 resp. 100–112): from an input-grid coordinate `v` and kernel offset
`k`, solve for the output coordinate, skipping on padding underflow,
stride misalignment, or output-extent overflow. -/
def bwdSolve (stride padding out_extent : Nat) (v k : Nat) : Option Nat :=
  if v + padding < k then none
  else if (v + padding - k) % stride ≠ 0 then none
  else if (v + padding - k) / stride ≥ out_extent then none
  else some ((v + padding - k) / stride)

/-- The backward kernel's guard chain is exactly `bwdSolve` applied on each
spatial axis: at a flattened in-range coordinate, `unfold_output_write`
writes iff both solves succeed, reading the output element addressed by the
two solved coordinates. -/
theorem unfold_output_write_eq_solve (op : Conv2DOp) (b o k1 k2 y x : Nat)
    (hb : b < op.batch) (ho : o < op.chan_out) (hk1 : k1 < op.kernel)
    (hk2 : k2 < op.kernel) (hy : y < op.h_in) (hx : x < op.w_in) :
    unfold_output_write op
        (flat6 op.chan_out op.kernel op.kernel op.h_in op.w_in b o k1 k2 y x)
      = match bwdSolve op.stride op.padding op.h_out y k1,
              bwdSolve op.stride op.padding op.w_out x k2 with
        | some oh, some ow =>
            some (b * (op.chan_out * op.h_out * op.w_out)
              + o * (op.h_out * op.w_out) + oh * op.w_out + ow)
        | _, _ => none := by
  rw [unfold_output_write_flat op b o k1 k2 y x hb ho hk1 hk2 hy hx]
  unfold bwdSolve
  split_ifs <;> rfl

/-- A geometry is valid when the stride is positive and the output extents
satisfy the standard convolution output-size formula. -/
def validGeom (op : Conv2DOp) : Prop :=
  0 < op.stride ∧
  op.h_out = (op.h_in + 2 * op.padding - op.kernel) / op.stride + 1 ∧
  op.w_out = (op.w_in + 2 * op.padding - op.kernel) / op.stride + 1

/-- C3: forward/backward unfold duality.  For every valid geometry and
every in-range coordinate `(b, c, k1, k2, oh, ow)` at which the forward
extractor writes, the backward extractor's guard logic (`bwdSolve`, the
guard chain of `unfold_output_into_patches`) applied at
`y = oh·stride + k1 − padding` and `x = ow·stride + k2 − padding` passes
all three guards and recovers exactly `(oh, ow)`. -/
theorem unfold_duality (op : Conv2DOp) (b c k1 k2 oh ow src : Nat)
    (hval : validGeom op)
    (hb : b < op.batch) (hc : c < op.chan_in) (hk1 : k1 < op.kernel)
    (hk2 : k2 < op.kernel) (hoh : oh < op.h_out) (how : ow < op.w_out)
    (hwrite : unfold_input_write op
        (flat6 op.chan_in op.kernel op.kernel op.h_out op.w_out b c k1 k2 oh ow)
      = some src) :
    bwdSolve op.stride op.padding op.h_out
        (oh * op.stride + k1 - op.padding) k1 = some oh ∧
    bwdSolve op.stride op.padding op.w_out
        (ow * op.stride + k2 - op.padding) k2 = some ow := by
  obtain ⟨hs, _, _⟩ := hval
  rw [unfold_input_write_flat op b c k1 k2 oh ow hb hc hk1 hk2 hoh how] at hwrite
  split_ifs at hwrite with g1 g2 g3 g4
  have e1 : oh * op.stride + k1 - op.padding + op.padding = oh * op.stride + k1 := by
    omega
  have e2 : ow * op.stride + k2 - op.padding + op.padding = ow * op.stride + k2 := by
    omega
  constructor
  · unfold bwdSolve
    rw [e1]
    have h1 : ¬ (oh * op.stride + k1 < k1) := by omega
    have h2 : oh * op.stride + k1 - k1 = oh * op.stride := by omega
    rw [if_neg h1, h2, Nat.mul_mod_left, Nat.mul_div_cancel oh hs]
    simp only [ne_eq, not_true_eq_false, if_false, if_neg (Nat.not_le.mpr hoh)]
  · unfold bwdSolve
    rw [e2]
    have h1 : ¬ (ow * op.stride + k2 < k2) := by omega
    have h2 : ow * op.stride + k2 - k2 = ow * op.stride := by omega
    rw [if_neg h1, h2, Nat.mul_mod_left, Nat.mul_div_cancel ow hs]
    simp only [ne_eq, not_true_eq_false, if_false, if_neg (Nat.not_le.mpr how)]

/-- Witness for `unfold_duality` at the geometry `opEx` and coordinate
`(0,0,2,1,1,2)`: the backward guard logic recovers `oh = 1` and `ow = 2`. -/
theorem unfold_duality_witness :
    bwdSolve 1 0 3 (1 * 1 + 2 - 0) 2 = some 1 ∧
    bwdSolve 1 0 3 (2 * 1 + 1 - 0) 1 = some 2 :=
  unfold_duality opEx 0 0 2 1 1 2 (flat4 1 5 5 0 0 3 3)
    (by unfold validGeom; exact ⟨by decide, by decide, by decide⟩)
    (by decide) (by decide) (by decide) (by decide) (by decide) (by decide)
    (by decide)

/-- C6: no out-of-bounds writes.  For every geometry descriptor (including
adversarial ones) and every thread index `i` — including indices past the
element count — whenever either extractor performs a write, the written
index `i` is strictly below the declared element count of its patches
tensor. -/
theorem unfold_no_oob_writes (op : Conv2DOp) (i : Nat) :
    (∀ src, unfold_input_write op i = some src → i < patchesNumelFwd op) ∧
    (∀ src, unfold_output_write op i = some src → i < patchesNumelBwd op) := by
  constructor
  · intro src h
    unfold unfold_input_write at h
    split_ifs at h with h1
    omega
  · intro src h
    unfold unfold_output_write at h
    split_ifs at h with h1
    omega

/-- An adversarial geometry with `kernel > stride` and `padding ≥ kernel`:
stride 1, padding 3, kernel 3, batch 1, one channel each way, 2×2 input,
6×6 output (the valid output size for this stride/padding/kernel). -/
def opAdv : Conv2DOp := ⟨1, 3, 3, 1, 1, 1, 2, 6, 2, 6⟩

/-- Witness for `unfold_no_oob_writes`: at the adversarial geometry `opAdv`
the forward extractor writes at thread 21 (coordinate `(0,0,0,0,3,3)`,
source pixel `(0,0)`), and that index is inside the patches tensor. -/
theorem unfold_no_oob_writes_witness :
    unfold_input_write opAdv 21 = some 0 ∧ 21 < patchesNumelFwd opAdv :=
  ⟨by decide, (unfold_no_oob_writes opAdv 21).1 0 (by decide)⟩

/-- C9: in-bounds reads.  For every geometry descriptor (even one whose
output extents do not satisfy the output-size formula) and every thread
index, whenever either extractor reads its source tensor, the computed
source offset is strictly below that source tensor's declared element
count. -/
theorem unfold_no_oob_reads (op : Conv2DOp) (i : Nat) :
    (∀ src, unfold_input_write op i = some src → src < imageNumel op) ∧
    (∀ src, unfold_output_write op i = some src → src < imageOutNumel op) := by
  constructor
  · intro src h
    simp only [unfold_input_write] at h
    split_ifs at h with h1 h2 h3 h4 h5
    injection h with h'
    subst h'
    have hP : 0 < op.batch * op.chan_in * op.kernel * op.kernel * op.h_out
        * op.w_out := by
      unfold patchesNumelFwd at h1; omega
    have hbatch : 0 < op.batch :=
      Nat.pos_of_ne_zero (by intro h0; rw [h0] at hP; simp at hP)
    have hchan : 0 < op.chan_in :=
      Nat.pos_of_ne_zero (by intro h0; rw [h0] at hP; simp at hP)
    unfold imageNumel
    rw [← flat4_offset]
    exact flat4_lt op.batch op.chan_in op.h_in op.w_in _ _ _ _
      (Nat.mod_lt _ hbatch) (Nat.mod_lt _ hchan) (by omega) (by omega)
  · intro src h
    simp only [unfold_output_write] at h
    split_ifs at h with h1 h2 h3 h4 h5 h6 h7
    injection h with h'
    subst h'
    have hP : 0 < op.batch * op.chan_out * op.kernel * op.kernel * op.h_in
        * op.w_in := by
      unfold patchesNumelBwd at h1; omega
    have hbatch : 0 < op.batch :=
      Nat.pos_of_ne_zero (by intro h0; rw [h0] at hP; simp at hP)
    have hchan : 0 < op.chan_out :=
      Nat.pos_of_ne_zero (by intro h0; rw [h0] at hP; simp at hP)
    unfold imageOutNumel
    rw [← flat4_offset]
    exact flat4_lt op.batch op.chan_out op.h_out op.w_out _ _ _ _
      (Nat.mod_lt _ hbatch) (Nat.mod_lt _ hchan) (by omega) (by omega)

/-- Witness for `unfold_no_oob_reads`: at the geometry `opEx` the forward
extractor's thread 80 reads image offset 24, which is inside the image
tensor. -/
theorem unfold_no_oob_reads_witness :
    unfold_input_write opEx 80 = some 24 ∧ 24 < imageNumel opEx :=
  ⟨by decide, (unfold_no_oob_reads opEx 80).1 24 (by decide)⟩

/-- C7: zero-fill respect.  For any geometry with `padding > 0` and a
non-empty patches tensor, the element at coordinate `(b, c, 0, 0, 0, 0)` is
never written by `unfold_input_into_patches` (its source coordinate
underflows the padding: the kernel neither clamps nor wraps), so on a
zero-initialized patches buffer it remains exactly zero. -/
theorem unfold_input_zero_fill (op : Conv2DOp) (image : Nat → Int)
    (b c : Nat) (hb : b < op.batch) (hc : c < op.chan_in)
    (hpad : 0 < op.padding) (hne : 0 < patchesNumelFwd op) :
    unfold_input_write op
        (flat6 op.chan_in op.kernel op.kernel op.h_out op.w_out b c 0 0 0 0)
      = none ∧
    unfold_input_into_patches op image (fun _ => 0)
        (flat6 op.chan_in op.kernel op.kernel op.h_out op.w_out b c 0 0 0 0)
      = 0 := by
  have hP : 0 < op.batch * op.chan_in * op.kernel * op.kernel * op.h_out
      * op.w_out := hne
  have hk : 0 < op.kernel :=
    Nat.pos_of_ne_zero (by intro h0; rw [h0] at hP; simp at hP)
  have hh : 0 < op.h_out :=
    Nat.pos_of_ne_zero (by intro h0; rw [h0] at hP; simp at hP)
  have hw : 0 < op.w_out :=
    Nat.pos_of_ne_zero (by intro h0; rw [h0] at hP; simp at hP)
  have hwrite := unfold_input_write_flat op b c 0 0 0 0 hb hc hk hk hh hw
  rw [if_pos (by omega : 0 * op.stride + 0 < op.padding)] at hwrite
  refine ⟨hwrite, ?_⟩
  unfold unfold_input_into_patches
  rw [hwrite]

/-- A geometry with positive padding: stride 1, padding 1, kernel 3,
batch 1, one channel each way, 5×5 input, 5×5 output. -/
def opPad : Conv2DOp := ⟨1, 1, 3, 1, 1, 1, 5, 5, 5, 5⟩

/-- Witness for `unfold_input_zero_fill` at the geometry `opPad`:
coordinate `(0,0,0,0,0,0)` (flat index 0) is skipped and stays zero. -/
theorem unfold_input_zero_fill_witness :
    unfold_input_write opPad (flat6 1 3 3 5 5 0 0 0 0 0 0) = none ∧
    unfold_input_into_patches opPad (fun j => (j : Int) + 7) (fun _ => 0)
        (flat6 1 3 3 5 5 0 0 0 0 0 0) = 0 :=
  unfold_input_zero_fill opPad (fun j => (j : Int) + 7) 0 0 (by decide)
    (by decide) (by decide) (by decide)

/-- Element count of the un-batched transposed filter layout
`(chan_in, chan_out, kernel, kernel)`, as computed in
`transpose_and_broadcast_filters`. -/
def filtersNumel (op : Conv2DOp) : Nat :=
  op.chan_in * op.chan_out * op.kernel * op.kernel

/-- Element count of the filter tensor `(chan_out, chan_in, kernel, kernel)`,
as computed in `sum_transposed_filters` (same value as `filtersNumel`, but
written in the other kernel's factor order). -/
def filtersNumelOut (op : Conv2DOp) : Nat :=
  op.chan_out * op.chan_in * op.kernel * op.kernel

/-- The transposed offset `i_tr` computed identically by
`transpose_and_broadcast_filters` and `sum_transposed_filters`: decompose
the flat filter index into `(k2, k1, c, o)` and flatten in the
`(chan_in, chan_out, kernel, kernel)` layout. -/
def i_tr (op : Conv2DOp) (i : Nat) : Nat :=
  let k2 := i % op.kernel
  let idx := i / op.kernel
  let k1 := idx % op.kernel
  let idx := idx / op.kernel
  let c := idx % op.chan_in
  let idx := idx / op.chan_in
  let o := idx % op.chan_out
  c * (op.chan_out * op.kernel * op.kernel) + o * (op.kernel * op.kernel)
    + k1 * op.kernel + k2

/-- The write list of one thread of `transpose_and_broadcast_filters`:
thread `i` reads `filters[i]` once and stores it into all `batch`
destination slots `b * numel + i_tr`. -/
def transpose_thread_writes (op : Conv2DOp) (filters : Nat → Int) (i : Nat) :
    List (Nat × Int) :=
  if i ≥ filtersNumel op then []
  else (List.range op.batch).map (fun b => (b * filtersNumel op + i_tr op i, filters i))

/-- Apply a list of single-element stores to a flat buffer, in order. -/
def writeSeq (buf : Nat → Int) (ws : List (Nat × Int)) : Nat → Int :=
  ws.foldl (fun bf w => fun j => if j = w.1 then w.2 else bf j) buf

/-- One launch of `transpose_and_broadcast_filters`: the ordered writes of
all threads applied to the destination buffer.  Distinct threads write
disjoint destinations (proved below), so the thread order chosen here is
immaterial. -/
def transpose_and_broadcast_filters (op : Conv2DOp)
    (filters filters_tr : Nat → Int) : Nat → Int :=
  writeSeq filters_tr
    ((List.range (filtersNumel op)).flatMap (transpose_thread_writes op filters))

/-- One launch of `sum_transposed_filters`: each thread owns exactly one
destination element `filters[i]`, accumulating into it the serial sum of
`filters_tr[b * numel + i_tr]` over the batch axis. -/
def sum_transposed_filters (op : Conv2DOp) (filters_tr filters : Nat → Int) :
    Nat → Int := fun i =>
  if i ≥ filtersNumelOut op then filters i
  else filters i + (List.range op.batch).foldl
    (fun tmp b => tmp + filters_tr (b * filtersNumelOut op + i_tr op i)) 0

/-- Row-major flattening of a five-dimensional coordinate against dimension
sizes `(d1,...,d5)` (outermost first). -/
def flat5 (d2 d3 d4 d5 : Nat) (a1 a2 a3 a4 a5 : Nat) : Nat :=
  (((a1 * d2 + a2) * d3 + a3) * d4 + a4) * d5 + a5

theorem flat5_offset (d2 d3 d4 d5 a1 a2 a3 a4 a5 : Nat) :
    flat5 d2 d3 d4 d5 a1 a2 a3 a4 a5
      = a1 * (d2 * d3 * d4 * d5) + a2 * (d3 * d4 * d5) + a3 * (d4 * d5)
        + a4 * d5 + a5 := by
  unfold flat5; ring

theorem flat5_lt (d1 d2 d3 d4 d5 a1 a2 a3 a4 a5 : Nat)
    (h1 : a1 < d1) (h2 : a2 < d2) (h3 : a3 < d3) (h4 : a4 < d4) (h5 : a5 < d5) :
    flat5 d2 d3 d4 d5 a1 a2 a3 a4 a5 < d1 * d2 * d3 * d4 * d5 :=
  flat_lt _ _ _ _
    (flat_lt _ _ _ _ (flat_lt _ _ _ _ (flat_lt _ _ _ _ h1 h2) h3) h4) h5

/-- Reassembling the mod/div decomposition of a flat index recovers the
index (four-dimensional case). -/
theorem flat4_recompose (d2 d3 d4 i : Nat) :
    flat4 d2 d3 d4 (i / d4 / d3 / d2) (i / d4 / d3 % d2) (i / d4 % d3) (i % d4)
      = i := by
  have e2 : i / d4 / d3 / d2 * d2 + i / d4 / d3 % d2 = i / d4 / d3 := by
    rw [Nat.mul_comm]; exact Nat.div_add_mod _ _
  have e3 : i / d4 / d3 * d3 + i / d4 % d3 = i / d4 := by
    rw [Nat.mul_comm]; exact Nat.div_add_mod _ _
  have e4 : i / d4 * d4 + i % d4 = i := by
    rw [Nat.mul_comm]; exact Nat.div_add_mod _ _
  unfold flat4
  rw [e2, e3, e4]

theorem div_div_div_lt (i C O K : Nat) (hC : 0 < C) (hK : 0 < K)
    (h : i < C * O * K * K) : i / K / K / C < O := by
  rw [Nat.div_lt_iff_lt_mul hC, Nat.div_lt_iff_lt_mul hK,
    Nat.div_lt_iff_lt_mul hK]
  exact h.trans_le (le_of_eq (by ring))

/-- `i_tr` at a flattened filter coordinate `(o, c, k1, k2)` swaps the two
channel axes: it is the flattening of `(c, o, k1, k2)` in the transposed
layout. -/
theorem i_tr_flat (op : Conv2DOp) (o c k1 k2 : Nat)
    (ho : o < op.chan_out) (hc : c < op.chan_in)
    (hk1 : k1 < op.kernel) (hk2 : k2 < op.kernel) :
    i_tr op (flat4 op.chan_in op.kernel op.kernel o c k1 k2)
      = flat4 op.chan_out op.kernel op.kernel c o k1 k2 := by
  obtain ⟨m4, m3, m2, m1⟩ :=
    flat4_decomp op.chan_in op.kernel op.kernel o c k1 k2 hc hk1 hk2
  simp only [i_tr, m4, m3, m2, m1, Nat.mod_eq_of_lt ho]
  rw [flat4_offset]

theorem i_tr_lt (op : Conv2DOp) (i : Nat) (hi : i < filtersNumel op) :
    i_tr op i < filtersNumel op := by
  have hP : 0 < op.chan_in * op.chan_out * op.kernel * op.kernel := by
    unfold filtersNumel at hi; omega
  have hci : 0 < op.chan_in :=
    Nat.pos_of_ne_zero (by intro h0; rw [h0] at hP; simp at hP)
  have hco : 0 < op.chan_out :=
    Nat.pos_of_ne_zero (by intro h0; rw [h0] at hP; simp at hP)
  have hk : 0 < op.kernel :=
    Nat.pos_of_ne_zero (by intro h0; rw [h0] at hP; simp at hP)
  unfold i_tr filtersNumel
  rw [← flat4_offset op.chan_out op.kernel op.kernel]
  exact flat4_lt op.chan_in op.chan_out op.kernel op.kernel _ _ _ _
    (Nat.mod_lt _ hci) (Nat.mod_lt _ hco) (Nat.mod_lt _ hk) (Nat.mod_lt _ hk)

/-- Every flat filter index below the element count is the flattening of
its own mod/div decomposition, with the leading coordinate in range. -/
theorem filter_index_recompose (op : Conv2DOp) (i : Nat)
    (hi : i < filtersNumel op) :
    i = flat4 op.chan_in op.kernel op.kernel
          (i / op.kernel / op.kernel / op.chan_in % op.chan_out)
          (i / op.kernel / op.kernel % op.chan_in)
          (i / op.kernel % op.kernel) (i % op.kernel) := by
  have hP : 0 < op.chan_in * op.chan_out * op.kernel * op.kernel := by
    unfold filtersNumel at hi; omega
  have hci : 0 < op.chan_in :=
    Nat.pos_of_ne_zero (by intro h0; rw [h0] at hP; simp at hP)
  have hk : 0 < op.kernel :=
    Nat.pos_of_ne_zero (by intro h0; rw [h0] at hP; simp at hP)
  have hdiv : i / op.kernel / op.kernel / op.chan_in < op.chan_out :=
    div_div_div_lt i op.chan_in op.chan_out op.kernel hci hk
      (by unfold filtersNumel at hi; exact hi)
  rw [Nat.mod_eq_of_lt hdiv]
  exact (flat4_recompose op.chan_in op.kernel op.kernel i).symm

theorem filters_dims_pos (op : Conv2DOp) (h : 0 < filtersNumel op) :
    0 < op.chan_in ∧ 0 < op.chan_out ∧ 0 < op.kernel := by
  unfold filtersNumel at h
  have h1 : op.chan_in ≠ 0 := by intro h0; rw [h0] at h; simp at h
  have h2 : op.chan_out ≠ 0 := by intro h0; rw [h0] at h; simp at h
  have h3 : op.kernel ≠ 0 := by intro h0; rw [h0] at h; simp at h
  exact ⟨Nat.pos_of_ne_zero h1, Nat.pos_of_ne_zero h2, Nat.pos_of_ne_zero h3⟩

/-- Two row-major flattened coordinates with in-range components agree only
if their components agree. -/
theorem flat4_inj (d2 d3 d4 a1 a2 a3 a4 b1 b2 b3 b4 : Nat)
    (ha2 : a2 < d2) (ha3 : a3 < d3) (ha4 : a4 < d4)
    (hb2 : b2 < d2) (hb3 : b3 < d3) (hb4 : b4 < d4)
    (h : flat4 d2 d3 d4 a1 a2 a3 a4 = flat4 d2 d3 d4 b1 b2 b3 b4) :
    a1 = b1 ∧ a2 = b2 ∧ a3 = b3 ∧ a4 = b4 := by
  obtain ⟨ma4, ma3, ma2, ma1⟩ := flat4_decomp d2 d3 d4 a1 a2 a3 a4 ha2 ha3 ha4
  obtain ⟨mb4, mb3, mb2, mb1⟩ := flat4_decomp d2 d3 d4 b1 b2 b3 b4 hb2 hb3 hb4
  refine ⟨?_, ?_, ?_, ?_⟩
  · rw [← ma1, h, mb1]
  · rw [← ma2, h, mb2]
  · rw [← ma3, h, mb3]
  · rw [← ma4, h, mb4]

/-- `i_tr` is injective on the thread index range of the filter kernels. -/
theorem i_tr_inj (op : Conv2DOp) (i i' : Nat)
    (hi : i < filtersNumel op) (hi' : i' < filtersNumel op)
    (h : i_tr op i = i_tr op i') : i = i' := by
  obtain ⟨hci, hco, hk⟩ := filters_dims_pos op (by omega)
  have hrec := filter_index_recompose op i hi
  have hrec' := filter_index_recompose op i' hi'
  have ho : i / op.kernel / op.kernel / op.chan_in % op.chan_out
      < op.chan_out := Nat.mod_lt _ hco
  have hc : i / op.kernel / op.kernel % op.chan_in < op.chan_in :=
    Nat.mod_lt _ hci
  have hk1 : i / op.kernel % op.kernel < op.kernel := Nat.mod_lt _ hk
  have hk2 : i % op.kernel < op.kernel := Nat.mod_lt _ hk
  have ho' : i' / op.kernel / op.kernel / op.chan_in % op.chan_out
      < op.chan_out := Nat.mod_lt _ hco
  have hc' : i' / op.kernel / op.kernel % op.chan_in < op.chan_in :=
    Nat.mod_lt _ hci
  have hk1' : i' / op.kernel % op.kernel < op.kernel := Nat.mod_lt _ hk
  have hk2' : i' % op.kernel < op.kernel := Nat.mod_lt _ hk
  rw [hrec, hrec'] at h
  rw [i_tr_flat op _ _ _ _ ho hc hk1 hk2, i_tr_flat op _ _ _ _ ho' hc' hk1' hk2']
    at h
  obtain ⟨ec, eo, ek1, ek2⟩ :=
    flat4_inj op.chan_out op.kernel op.kernel _ _ _ _ _ _ _ _
      ho hk1 hk2 ho' hk1' hk2' h
  rw [hrec, hrec', ec, eo, ek1, ek2]

theorem writeSeq_of_not_mem (ws : List (Nat × Int)) :
    ∀ (buf : Nat → Int) (j : Nat), (∀ p ∈ ws, p.1 ≠ j) →
      writeSeq buf ws j = buf j := by
  induction ws with
  | nil => intro buf j _; rfl
  | cons p rest ih =>
    intro buf j h
    show writeSeq (fun j' => if j' = p.1 then p.2 else buf j') rest j = buf j
    rw [ih _ j (fun q hq => h q (List.mem_cons_of_mem p hq))]
    exact if_neg (fun hj => h p (List.mem_cons_self p rest) hj.symm)

theorem writeSeq_last_value (ws : List (Nat × Int)) :
    ∀ (buf : Nat → Int) (j : Nat) (v : Int), (∃ p ∈ ws, p.1 = j) →
      (∀ p ∈ ws, p.1 = j → p.2 = v) → writeSeq buf ws j = v := by
  induction ws with
  | nil =>
    intro buf j v hex _
    obtain ⟨p, hp, _⟩ := hex
    exact absurd hp (List.not_mem_nil p)
  | cons p rest ih =>
    intro buf j v hex hval
    show writeSeq (fun j' => if j' = p.1 then p.2 else buf j') rest j = v
    by_cases hrest : ∃ q ∈ rest, q.1 = j
    · exact ih _ j v hrest (fun q hq hqj => hval q (List.mem_cons_of_mem p hq) hqj)
    · push_neg at hrest
      have hp1 : p.1 = j := by
        obtain ⟨q, hq, hqj⟩ := hex
        rcases List.mem_cons.mp hq with h | h
        · rw [← h]; exact hqj
        · exact absurd hqj (hrest q h)
      rw [writeSeq_of_not_mem rest _ j hrest]
      show (if j = p.1 then p.2 else buf j) = v
      rw [if_pos hp1.symm]
      exact hval p (List.mem_cons_self p rest) hp1

/-- The value of the transpose-broadcast output at any destination offset of
the form `b·numel + i_tr i`: exactly the thread-`i` filter value, regardless
of the destination buffer's prior contents. -/
theorem transpose_result_at (op : Conv2DOp) (filters buf : Nat → Int)
    (i b : Nat) (hi : i < filtersNumel op) (hb : b < op.batch) :
    transpose_and_broadcast_filters op filters buf
        (b * filtersNumel op + i_tr op i) = filters i := by
  unfold transpose_and_broadcast_filters
  apply writeSeq_last_value
  · refine ⟨(b * filtersNumel op + i_tr op i, filters i), ?_, rfl⟩
    rw [List.mem_flatMap]
    refine ⟨i, List.mem_range.mpr hi, ?_⟩
    unfold transpose_thread_writes
    rw [if_neg (Nat.not_le.mpr hi)]
    exact List.mem_map.mpr ⟨b, List.mem_range.mpr hb, rfl⟩
  · intro p hp hpj
    rw [List.mem_flatMap] at hp
    obtain ⟨i', hi'mem, hp'⟩ := hp
    have hi' : i' < filtersNumel op := List.mem_range.mp hi'mem
    unfold transpose_thread_writes at hp'
    rw [if_neg (Nat.not_le.mpr hi')] at hp'
    obtain ⟨b', hb'mem, hpeq⟩ := List.mem_map.mp hp'
    have hb' : b' < op.batch := List.mem_range.mp hb'mem
    rw [← hpeq] at hpj ⊢
    simp only at hpj ⊢
    have htr : i_tr op i < filtersNumel op := i_tr_lt op i hi
    have htr' : i_tr op i' < filtersNumel op := i_tr_lt op i' hi'
    have hbeq : b' = b := by
      have d1 := flat_div b' (i_tr op i') (filtersNumel op) htr'
      have d2 := flat_div b (i_tr op i) (filtersNumel op) htr
      rw [← d1, hpj, d2]
    have hreq : i_tr op i' = i_tr op i := by
      have d1 := flat_mod b' (i_tr op i') (filtersNumel op) htr'
      have d2 := flat_mod b (i_tr op i) (filtersNumel op) htr
      rw [← d1, hpj, d2]
    rw [i_tr_inj op i' i hi' hi hreq]

/-- C4: for every geometry descriptor and every filter tensor, after
`transpose_and_broadcast_filters` every batch slice `b` of the 5D result
`(batch, chan_in, chan_out, kernel, kernel)` equals the source filter tensor
with the `chan_out`/`chan_in` axes swapped —
`result[b][c][o][k1][k2] = filter[o][c][k1][k2]` for all in-range indices —
and hence any two batch slices agree. -/
theorem transpose_and_broadcast_filters_correct (op : Conv2DOp)
    (filters buf : Nat → Int) (c o k1 k2 : Nat)
    (hc : c < op.chan_in) (ho : o < op.chan_out)
    (hk1 : k1 < op.kernel) (hk2 : k2 < op.kernel) :
    (∀ b, b < op.batch →
      transpose_and_broadcast_filters op filters buf
          (flat5 op.chan_in op.chan_out op.kernel op.kernel b c o k1 k2)
        = filters (flat4 op.chan_in op.kernel op.kernel o c k1 k2)) ∧
    (∀ b1 b2, b1 < op.batch → b2 < op.batch → b1 ≠ b2 →
      transpose_and_broadcast_filters op filters buf
          (flat5 op.chan_in op.chan_out op.kernel op.kernel b1 c o k1 k2)
        = transpose_and_broadcast_filters op filters buf
            (flat5 op.chan_in op.chan_out op.kernel op.kernel b2 c o k1 k2)) := by
  have key : ∀ b, b < op.batch →
      transpose_and_broadcast_filters op filters buf
          (flat5 op.chan_in op.chan_out op.kernel op.kernel b c o k1 k2)
        = filters (flat4 op.chan_in op.kernel op.kernel o c k1 k2) := by
    intro b hb
    have hi0 : flat4 op.chan_in op.kernel op.kernel o c k1 k2
        < filtersNumel op := by
      have := flat4_lt op.chan_out op.chan_in op.kernel op.kernel o c k1 k2
        ho hc hk1 hk2
      unfold filtersNumel
      exact this.trans_le (le_of_eq (by ring))
    have hdest : b * filtersNumel op
          + i_tr op (flat4 op.chan_in op.kernel op.kernel o c k1 k2)
        = flat5 op.chan_in op.chan_out op.kernel op.kernel b c o k1 k2 := by
      rw [i_tr_flat op o c k1 k2 ho hc hk1 hk2, flat5_offset, flat4_offset]
      unfold filtersNumel
      ring
    rw [← hdest]
    exact transpose_result_at op filters buf _ b hi0 hb
  exact ⟨key, fun b1 b2 h1 h2 _ => by rw [key b1 h1, key b2 h2]⟩

/-- A geometry for the filter kernels: batch 2, chan_in 2, chan_out 3,
1×1 kernel. -/
def opF : Conv2DOp := ⟨1, 0, 1, 2, 2, 3, 1, 1, 1, 1⟩

/-- Witness for `transpose_and_broadcast_filters_correct` at the geometry
`opF`, slice `b = 0`, coordinate `(c,o) = (1,2)`. -/
theorem transpose_and_broadcast_filters_correct_witness :
    transpose_and_broadcast_filters opF (fun j => (j : Int)) (fun _ => -1)
        (flat5 2 3 1 1 0 1 2 0 0)
      = (fun j => (j : Int)) (flat4 2 1 1 2 1 0 0) :=
  (transpose_and_broadcast_filters_correct opF (fun j => (j : Int))
    (fun _ => -1) 1 2 0 0 (by decide) (by decide) (by decide) (by decide)).1
    0 (by decide)

/-- Every offset below the un-batched element count is `i_tr` of a unique
in-range thread index (surjectivity half). -/
theorem i_tr_surj (op : Conv2DOp) (r : Nat) (hr : r < filtersNumel op) :
    ∃ i, i < filtersNumel op ∧ i_tr op i = r := by
  obtain ⟨hci, hco, hk⟩ := filters_dims_pos op (by omega)
  have hr' : r < op.chan_out * op.chan_in * op.kernel * op.kernel := by
    unfold filtersNumel at hr
    exact hr.trans_le (le_of_eq (by ring))
  have hc' : r / op.kernel / op.kernel / op.chan_out < op.chan_in :=
    div_div_div_lt r op.chan_out op.chan_in op.kernel hco hk hr'
  refine ⟨flat4 op.chan_in op.kernel op.kernel
    (r / op.kernel / op.kernel % op.chan_out)
    (r / op.kernel / op.kernel / op.chan_out)
    (r / op.kernel % op.kernel) (r % op.kernel), ?_, ?_⟩
  · have := flat4_lt op.chan_out op.chan_in op.kernel op.kernel
      (r / op.kernel / op.kernel % op.chan_out)
      (r / op.kernel / op.kernel / op.chan_out)
      (r / op.kernel % op.kernel) (r % op.kernel)
      (Nat.mod_lt _ hco) hc' (Nat.mod_lt _ hk) (Nat.mod_lt _ hk)
    unfold filtersNumel
    exact this.trans_le (le_of_eq (by ring))
  · rw [i_tr_flat op (r / op.kernel / op.kernel % op.chan_out)
      (r / op.kernel / op.kernel / op.chan_out)
      (r / op.kernel % op.kernel) (r % op.kernel)
      (Nat.mod_lt _ hco) hc' (Nat.mod_lt _ hk) (Nat.mod_lt _ hk)]
    exact flat4_recompose op.chan_out op.kernel op.kernel r

/-- C10: the write map of `transpose_and_broadcast_filters` — thread `i`,
batch-loop index `b`, destination `b·numel + i_tr i` — lands inside the 5D
destination tensor and is a bijection onto its index range; consequently
the launched kernel's result at every destination index is independent of
the destination buffer's prior contents (no pre-zeroing needed). -/
theorem transpose_write_map_bijective (op : Conv2DOp) :
    (∀ i b, i < filtersNumel op → b < op.batch →
      b * filtersNumel op + i_tr op i < op.batch * filtersNumel op) ∧
    (∀ j, j < op.batch * filtersNumel op →
      ∃! p : Nat × Nat, p.1 < filtersNumel op ∧ p.2 < op.batch ∧
        p.2 * filtersNumel op + i_tr op p.1 = j) ∧
    (∀ filters buf1 buf2 j, j < op.batch * filtersNumel op →
      transpose_and_broadcast_filters op filters buf1 j
        = transpose_and_broadcast_filters op filters buf2 j) := by
  have hway : ∀ j, j < op.batch * filtersNumel op →
      ∃ i b, i < filtersNumel op ∧ b < op.batch ∧
        b * filtersNumel op + i_tr op i = j := by
    intro j hj
    have hnum : 0 < filtersNumel op := by
      rcases Nat.eq_zero_or_pos (filtersNumel op) with h0 | h0
      · rw [h0, Nat.mul_zero] at hj; omega
      · exact h0
    have hb : j / filtersNumel op < op.batch :=
      (Nat.div_lt_iff_lt_mul hnum).mpr hj
    obtain ⟨i, hi, htr⟩ := i_tr_surj op (j % filtersNumel op) (Nat.mod_lt _ hnum)
    refine ⟨i, j / filtersNumel op, hi, hb, ?_⟩
    rw [htr, Nat.mul_comm]
    exact Nat.div_add_mod j (filtersNumel op)
  refine ⟨?_, ?_, ?_⟩
  · intro i b hi hb
    exact flat_lt b (i_tr op i) op.batch (filtersNumel op) hb (i_tr_lt op i hi)
  · intro j hj
    obtain ⟨i, b, hi, hb, hdest⟩ := hway j hj
    refine ⟨(i, b), ⟨hi, hb, hdest⟩, ?_⟩
    rintro ⟨i', b'⟩ ⟨hi', hb', hdest'⟩
    have htr := i_tr_lt op i hi
    have htr' := i_tr_lt op i' hi'
    have hbeq : b' = b := by
      have d1 := flat_div b' (i_tr op i') (filtersNumel op) htr'
      have d2 := flat_div b (i_tr op i) (filtersNumel op) htr
      rw [← d1, hdest', ← hdest, d2]
    have hreq : i_tr op i' = i_tr op i := by
      have m1 := flat_mod b' (i_tr op i') (filtersNumel op) htr'
      have m2 := flat_mod b (i_tr op i) (filtersNumel op) htr
      rw [← m1, hdest', ← hdest, m2]
    have hieq : i' = i := i_tr_inj op i' i hi' hi hreq
    simp [hieq, hbeq]
  · intro filters buf1 buf2 j hj
    obtain ⟨i, b, hi, hb, hdest⟩ := hway j hj
    rw [← hdest, transpose_result_at op filters buf1 i b hi hb,
      transpose_result_at op filters buf2 i b hi hb]

/-- Witness for `transpose_write_map_bijective`: at the geometry `opF`
destination index 7 has exactly one (thread, batch-slot) preimage. -/
theorem transpose_write_map_bijective_witness :
    ∃! p : Nat × Nat, p.1 < filtersNumel opF ∧ p.2 < opF.batch ∧
      p.2 * filtersNumel opF + i_tr opF p.1 = 7 :=
  (transpose_write_map_bijective opF).2.1 7 (by decide)

theorem foldl_range_add_eq_sum (g : Nat → Int) (n : Nat) :
    (List.range n).foldl (fun t b => t + g b) 0 = ∑ b ∈ Finset.range n, g b := by
  induction n with
  | zero => simp
  | succ m ih =>
    rw [List.range_succ, List.foldl_append, ih, Finset.sum_range_succ]
    rfl

/-- C5: for every geometry descriptor and every batched 5D tensor of
per-batch partial filter gradients, `sum_transposed_filters` adds — does
not overwrite — into the destination element `(o, c, k1, k2)` the sum over
all batch indices `b` of `source[b][c][o][k1][k2]`; the destination's prior
value is preserved as an additive term, so repeated invocations
accumulate. -/
theorem sum_transposed_filters_correct (op : Conv2DOp)
    (filters_tr filters : Nat → Int) (o c k1 k2 : Nat)
    (ho : o < op.chan_out) (hc : c < op.chan_in)
    (hk1 : k1 < op.kernel) (hk2 : k2 < op.kernel) :
    sum_transposed_filters op filters_tr filters
        (flat4 op.chan_in op.kernel op.kernel o c k1 k2)
      = filters (flat4 op.chan_in op.kernel op.kernel o c k1 k2)
        + ∑ b ∈ Finset.range op.batch,
            filters_tr
              (flat5 op.chan_in op.chan_out op.kernel op.kernel b c o k1 k2) := by
  have hi0 : flat4 op.chan_in op.kernel op.kernel o c k1 k2
      < filtersNumelOut op :=
    flat4_lt op.chan_out op.chan_in op.kernel op.kernel o c k1 k2 ho hc hk1 hk2
  unfold sum_transposed_filters
  rw [if_neg (Nat.not_le.mpr hi0)]
  congr 1
  have hfun : (fun (tmp : Int) (b : Nat) => tmp + filters_tr
        (b * filtersNumelOut op
          + i_tr op (flat4 op.chan_in op.kernel op.kernel o c k1 k2)))
      = fun (tmp : Int) (b : Nat) => tmp + filters_tr
        (flat5 op.chan_in op.chan_out op.kernel op.kernel b c o k1 k2) := by
    funext tmp b
    rw [i_tr_flat op o c k1 k2 ho hc hk1 hk2, flat5_offset, flat4_offset]
    unfold filtersNumelOut
    ring_nf
  rw [hfun, foldl_range_add_eq_sum]

/-- Witness for `sum_transposed_filters_correct` at the geometry `opF`,
coordinate `(o,c) = (2,1)`. -/
theorem sum_transposed_filters_correct_witness :
    sum_transposed_filters opF (fun j => (j : Int)) (fun j => 100 + (j : Int))
        (flat4 2 1 1 2 1 0 0)
      = (fun j => 100 + (j : Int)) (flat4 2 1 1 2 1 0 0)
        + ∑ b ∈ Finset.range 2, (fun j => (j : Int)) (flat5 2 3 1 1 b 1 2 0 0) :=
  sum_transposed_filters_correct opF (fun j => (j : Int))
    (fun j => 100 + (j : Int)) 2 1 0 0 (by decide) (by decide) (by decide)
    (by decide)

/-! ## Machine-width model of the unfold kernels

In the source the geometry fields and all offset arithmetic are `size_t`
(64-bit), while the thread index `i` and the scratch variable `idx` are
`unsigned int` (32-bit).  The `_m` definitions below repeat the two unfold
kernels with the C evaluation widths made explicit: every `size_t`
multiplication/addition is reduced `% 2^64`, and every store back into the
32-bit `idx` is reduced `% 2^32` (subtractions are guarded in the source, so
they never wrap).  Comparing these against the exact-`Nat` kernels settles
how wide the computed counts and offsets really are. -/

/-- `2^64`, the modulus of `size_t` arithmetic. -/
def w64 : Nat := 2 ^ 64

/-- `2^32`, the modulus of `unsigned int` arithmetic. -/
def w32 : Nat := 2 ^ 32

/-- The forward patches element count as `size_t` arithmetic computes it:
the five multiplications each reduced `% 2^64`. -/
def patchesNumelFwd_m (op : Conv2DOp) : Nat :=
  ((((op.batch * op.chan_in % w64) * op.kernel % w64) * op.kernel % w64)
    * op.h_out % w64) * op.w_out % w64

/-- The backward patches element count as `size_t` arithmetic computes it. -/
def patchesNumelBwd_m (op : Conv2DOp) : Nat :=
  ((((op.batch * op.chan_out % w64) * op.kernel % w64) * op.kernel % w64)
    * op.h_in % w64) * op.w_in % w64

/-- `unfold_input_into_patches` per-thread body at machine widths: the
thread index is a 32-bit value (hypotheses add `i < 2^32`), `idx` is stored
back into 32 bits after each division, and every `size_t` product/sum is
reduced `% 2^64`. -/
def unfold_input_write_m (op : Conv2DOp) (i : Nat) : Option Nat :=
  if i ≥ patchesNumelFwd_m op then none else
  let ow := i % op.w_out
  let idx := i / op.w_out % w32
  let oh := idx % op.h_out
  let idx := idx / op.h_out % w32
  let k2 := idx % op.kernel
  let idx := idx / op.kernel % w32
  let k1 := idx % op.kernel
  let idx := idx / op.kernel % w32
  let c := idx % op.chan_in
  let idx := idx / op.chan_in % w32
  let b := idx % op.batch
  let y_plus_p := (oh * op.stride % w64 + k1) % w64
  if y_plus_p < op.padding then none else
  let y := y_plus_p - op.padding
  if y ≥ op.h_in then none else
  let x_plus_p := (ow * op.stride % w64 + k2) % w64
  if x_plus_p < op.padding then none else
  let x := x_plus_p - op.padding
  if x ≥ op.w_in then none else
  some ((((b * (op.chan_in * op.h_in % w64 * op.w_in % w64) % w64
          + c * (op.h_in * op.w_in % w64) % w64) % w64
          + y * op.w_in % w64) % w64 + x) % w64)

/-- `unfold_output_into_patches` per-thread body at machine widths. -/
def unfold_output_write_m (op : Conv2DOp) (i : Nat) : Option Nat :=
  if i ≥ patchesNumelBwd_m op then none else
  let x := i % op.w_in
  let idx := i / op.w_in % w32
  let y := idx % op.h_in
  let idx := idx / op.h_in % w32
  let k2 := idx % op.kernel
  let idx := idx / op.kernel % w32
  let k1 := idx % op.kernel
  let idx := idx / op.kernel % w32
  let o := idx % op.chan_out
  let idx := idx / op.chan_out % w32
  let b := idx % op.batch
  let oh0 := (y + op.padding) % w64
  if oh0 < k1 then none else
  let oh1 := oh0 - k1
  if oh1 % op.stride ≠ 0 then none else
  let oh := oh1 / op.stride
  if oh ≥ op.h_out then none else
  let ow0 := (x + op.padding) % w64
  if ow0 < k2 then none else
  let ow1 := ow0 - k2
  if ow1 % op.stride ≠ 0 then none else
  let ow := ow1 / op.stride
  if ow ≥ op.w_out then none else
  some ((((b * (op.chan_out * op.h_out % w64 * op.w_out % w64) % w64
          + o * (op.h_out * op.w_out % w64) % w64) % w64
          + oh * op.w_out % w64) % w64 + ow) % w64)

/-- A geometry whose forward patches tensor has 8 elements (representable
in any machine width) but whose image tensor has `2·2^64` elements: 1×2
channels over a `2^32 × 2^32` image, declared 2×2 output, kernel 1. -/
def opC8 : Conv2DOp := ⟨1, 0, 1, 1, 2, 1, 2 ^ 32, 2, 2 ^ 32, 2⟩

theorem patchesNumelFwd_m_eq (op : Conv2DOp) (hfw : patchesNumelFwd op < w64) :
    patchesNumelFwd_m op = patchesNumelFwd op := by
  unfold patchesNumelFwd at hfw
  unfold patchesNumelFwd_m patchesNumelFwd
  have h : ((((op.batch * op.chan_in % w64) * op.kernel % w64) * op.kernel % w64)
        * op.h_out % w64) * op.w_out % w64
      = op.batch * op.chan_in * op.kernel * op.kernel * op.h_out * op.w_out
        % w64 := by
    simp [Nat.mul_mod]
  rw [h, Nat.mod_eq_of_lt hfw]

theorem patchesNumelBwd_m_eq (op : Conv2DOp) (hbw : patchesNumelBwd op < w64) :
    patchesNumelBwd_m op = patchesNumelBwd op := by
  unfold patchesNumelBwd at hbw
  unfold patchesNumelBwd_m patchesNumelBwd
  have h : ((((op.batch * op.chan_out % w64) * op.kernel % w64) * op.kernel % w64)
        * op.h_in % w64) * op.w_in % w64
      = op.batch * op.chan_out * op.kernel * op.kernel * op.h_in * op.w_in
        % w64 := by
    simp [Nat.mul_mod]
  rw [h, Nat.mod_eq_of_lt hbw]

theorem unfold_input_machine_agree (op : Conv2DOp) (i : Nat)
    (hi : i < w32) (hfw : patchesNumelFwd op < w64)
    (hyf : op.h_out * op.stride + op.kernel ≤ w64)
    (hxf : op.w_out * op.stride + op.kernel ≤ w64)
    (himg : imageNumel op ≤ w64) :
    unfold_input_write_m op i = unfold_input_write op i := by
  simp only [unfold_input_write_m, unfold_input_write]
  rw [patchesNumelFwd_m_eq op hfw]
  by_cases hge : i ≥ patchesNumelFwd op
  · rw [if_pos hge, if_pos hge]
  · rw [if_neg hge, if_neg hge]
    push_neg at hge
    have hP : 0 < op.batch * op.chan_in * op.kernel * op.kernel * op.h_out
        * op.w_out := by
      unfold patchesNumelFwd at hge; omega
    have hbt : 0 < op.batch :=
      Nat.pos_of_ne_zero (by intro h0; rw [h0] at hP; simp at hP)
    have hci : 0 < op.chan_in :=
      Nat.pos_of_ne_zero (by intro h0; rw [h0] at hP; simp at hP)
    have hk : 0 < op.kernel :=
      Nat.pos_of_ne_zero (by intro h0; rw [h0] at hP; simp at hP)
    have hho : 0 < op.h_out :=
      Nat.pos_of_ne_zero (by intro h0; rw [h0] at hP; simp at hP)
    have hwo : 0 < op.w_out :=
      Nat.pos_of_ne_zero (by intro h0; rw [h0] at hP; simp at hP)
    have d1 : i / op.w_out % w32 = i / op.w_out :=
      Nat.mod_eq_of_lt (Nat.lt_of_le_of_lt (Nat.div_le_self _ _) hi)
    rw [d1]
    have d2 : i / op.w_out / op.h_out % w32 = i / op.w_out / op.h_out :=
      Nat.mod_eq_of_lt (Nat.lt_of_le_of_lt
        (Nat.le_trans (Nat.div_le_self _ _) (Nat.div_le_self _ _)) hi)
    rw [d2]
    have d3 : i / op.w_out / op.h_out / op.kernel % w32
        = i / op.w_out / op.h_out / op.kernel :=
      Nat.mod_eq_of_lt (Nat.lt_of_le_of_lt
        (Nat.le_trans (Nat.div_le_self _ _) (Nat.le_trans (Nat.div_le_self _ _)
          (Nat.div_le_self _ _))) hi)
    rw [d3]
    have d4 : i / op.w_out / op.h_out / op.kernel / op.kernel % w32
        = i / op.w_out / op.h_out / op.kernel / op.kernel :=
      Nat.mod_eq_of_lt (Nat.lt_of_le_of_lt
        (Nat.le_trans (Nat.div_le_self _ _) (Nat.le_trans (Nat.div_le_self _ _)
          (Nat.le_trans (Nat.div_le_self _ _) (Nat.div_le_self _ _)))) hi)
    rw [d4]
    have d5 : i / op.w_out / op.h_out / op.kernel / op.kernel / op.chan_in % w32
        = i / op.w_out / op.h_out / op.kernel / op.kernel / op.chan_in :=
      Nat.mod_eq_of_lt (Nat.lt_of_le_of_lt
        (Nat.le_trans (Nat.div_le_self _ _) (Nat.le_trans (Nat.div_le_self _ _)
          (Nat.le_trans (Nat.div_le_self _ _) (Nat.le_trans (Nat.div_le_self _ _)
            (Nat.div_le_self _ _))))) hi)
    rw [d5]
    set ow := i % op.w_out with how_def
    set oh := i / op.w_out % op.h_out with hoh_def
    set k2 := i / op.w_out / op.h_out % op.kernel with hk2_def
    set k1 := i / op.w_out / op.h_out / op.kernel % op.kernel with hk1_def
    set c := i / op.w_out / op.h_out / op.kernel / op.kernel % op.chan_in
      with hc_def
    set b := i / op.w_out / op.h_out / op.kernel / op.kernel / op.chan_in
      % op.batch with hb_def
    have hohlt : oh < op.h_out := Nat.mod_lt _ hho
    have howlt : ow < op.w_out := Nat.mod_lt _ hwo
    have hk1lt : k1 < op.kernel := Nat.mod_lt _ hk
    have hk2lt : k2 < op.kernel := Nat.mod_lt _ hk
    have hclt : c < op.chan_in := Nat.mod_lt _ hci
    have hblt : b < op.batch := Nat.mod_lt _ hbt
    have hyplt : oh * op.stride + k1 < w64 := by
      have hmul : oh * op.stride ≤ op.h_out * op.stride :=
        Nat.mul_le_mul_right _ (Nat.le_of_lt hohlt)
      omega
    have hxplt : ow * op.stride + k2 < w64 := by
      have hmul : ow * op.stride ≤ op.w_out * op.stride :=
        Nat.mul_le_mul_right _ (Nat.le_of_lt howlt)
      omega
    have e_yp : (oh * op.stride % w64 + k1) % w64 = oh * op.stride + k1 := by
      rw [Nat.mod_eq_of_lt (by omega : oh * op.stride < w64),
        Nat.mod_eq_of_lt hyplt]
    have e_xp : (ow * op.stride % w64 + k2) % w64 = ow * op.stride + k2 := by
      rw [Nat.mod_eq_of_lt (by omega : ow * op.stride < w64),
        Nat.mod_eq_of_lt hxplt]
    rw [e_yp, e_xp]
    split_ifs with g1 g2 g3 g4
    · rfl
    · rfl
    · rfl
    · rfl
    congr 1
    have hmod : (((b * (op.chan_in * op.h_in % w64 * op.w_in % w64) % w64
          + c * (op.h_in * op.w_in % w64) % w64) % w64
          + (oh * op.stride + k1 - op.padding) * op.w_in % w64) % w64
          + (ow * op.stride + k2 - op.padding)) % w64
        = (b * (op.chan_in * op.h_in * op.w_in) + c * (op.h_in * op.w_in)
          + (oh * op.stride + k1 - op.padding) * op.w_in
          + (ow * op.stride + k2 - op.padding)) % w64 := by
      simp [Nat.mul_mod, Nat.add_mod]
    rw [hmod]
    have hflat : b * (op.chan_in * op.h_in * op.w_in) + c * (op.h_in * op.w_in)
        + (oh * op.stride + k1 - op.padding) * op.w_in
        + (ow * op.stride + k2 - op.padding) < imageNumel op := by
      unfold imageNumel
      rw [← flat4_offset]
      exact flat4_lt op.batch op.chan_in op.h_in op.w_in _ _ _ _
        hblt hclt (by omega) (by omega)
    exact Nat.mod_eq_of_lt (by omega)

theorem unfold_output_machine_agree (op : Conv2DOp) (i : Nat)
    (hi : i < w32) (hbw : patchesNumelBwd op < w64)
    (hyb : op.h_in + op.padding ≤ w64)
    (hxb : op.w_in + op.padding ≤ w64)
    (hout : imageOutNumel op ≤ w64) :
    unfold_output_write_m op i = unfold_output_write op i := by
  simp only [unfold_output_write_m, unfold_output_write]
  rw [patchesNumelBwd_m_eq op hbw]
  by_cases hge : i ≥ patchesNumelBwd op
  · rw [if_pos hge, if_pos hge]
  · rw [if_neg hge, if_neg hge]
    push_neg at hge
    have hP : 0 < op.batch * op.chan_out * op.kernel * op.kernel * op.h_in
        * op.w_in := by
      unfold patchesNumelBwd at hge; omega
    have hbt : 0 < op.batch :=
      Nat.pos_of_ne_zero (by intro h0; rw [h0] at hP; simp at hP)
    have hco : 0 < op.chan_out :=
      Nat.pos_of_ne_zero (by intro h0; rw [h0] at hP; simp at hP)
    have hk : 0 < op.kernel :=
      Nat.pos_of_ne_zero (by intro h0; rw [h0] at hP; simp at hP)
    have hhi : 0 < op.h_in :=
      Nat.pos_of_ne_zero (by intro h0; rw [h0] at hP; simp at hP)
    have hwi : 0 < op.w_in :=
      Nat.pos_of_ne_zero (by intro h0; rw [h0] at hP; simp at hP)
    have d1 : i / op.w_in % w32 = i / op.w_in :=
      Nat.mod_eq_of_lt (Nat.lt_of_le_of_lt (Nat.div_le_self _ _) hi)
    rw [d1]
    have d2 : i / op.w_in / op.h_in % w32 = i / op.w_in / op.h_in :=
      Nat.mod_eq_of_lt (Nat.lt_of_le_of_lt
        (Nat.le_trans (Nat.div_le_self _ _) (Nat.div_le_self _ _)) hi)
    rw [d2]
    have d3 : i / op.w_in / op.h_in / op.kernel % w32
        = i / op.w_in / op.h_in / op.kernel :=
      Nat.mod_eq_of_lt (Nat.lt_of_le_of_lt
        (Nat.le_trans (Nat.div_le_self _ _) (Nat.le_trans (Nat.div_le_self _ _)
          (Nat.div_le_self _ _))) hi)
    rw [d3]
    have d4 : i / op.w_in / op.h_in / op.kernel / op.kernel % w32
        = i / op.w_in / op.h_in / op.kernel / op.kernel :=
      Nat.mod_eq_of_lt (Nat.lt_of_le_of_lt
        (Nat.le_trans (Nat.div_le_self _ _) (Nat.le_trans (Nat.div_le_self _ _)
          (Nat.le_trans (Nat.div_le_self _ _) (Nat.div_le_self _ _)))) hi)
    rw [d4]
    have d5 : i / op.w_in / op.h_in / op.kernel / op.kernel / op.chan_out % w32
        = i / op.w_in / op.h_in / op.kernel / op.kernel / op.chan_out :=
      Nat.mod_eq_of_lt (Nat.lt_of_le_of_lt
        (Nat.le_trans (Nat.div_le_self _ _) (Nat.le_trans (Nat.div_le_self _ _)
          (Nat.le_trans (Nat.div_le_self _ _) (Nat.le_trans (Nat.div_le_self _ _)
            (Nat.div_le_self _ _))))) hi)
    rw [d5]
    set x := i % op.w_in with hx_def
    set y := i / op.w_in % op.h_in with hy_def
    set k2 := i / op.w_in / op.h_in % op.kernel with hk2_def
    set k1 := i / op.w_in / op.h_in / op.kernel % op.kernel with hk1_def
    set o := i / op.w_in / op.h_in / op.kernel / op.kernel % op.chan_out
      with ho_def
    set b := i / op.w_in / op.h_in / op.kernel / op.kernel / op.chan_out
      % op.batch with hb_def
    have hylt : y < op.h_in := Nat.mod_lt _ hhi
    have hxlt : x < op.w_in := Nat.mod_lt _ hwi
    have holt : o < op.chan_out := Nat.mod_lt _ hco
    have hblt : b < op.batch := Nat.mod_lt _ hbt
    have e_oh0 : (y + op.padding) % w64 = y + op.padding :=
      Nat.mod_eq_of_lt (by omega)
    have e_ow0 : (x + op.padding) % w64 = x + op.padding :=
      Nat.mod_eq_of_lt (by omega)
    rw [e_oh0, e_ow0]
    split_ifs with g1 g2 g3 g4 g5 g6
    · rfl
    · rfl
    · rfl
    · rfl
    · rfl
    · rfl
    congr 1
    have hmod : (((b * (op.chan_out * op.h_out % w64 * op.w_out % w64) % w64
          + o * (op.h_out * op.w_out % w64) % w64) % w64
          + (y + op.padding - k1) / op.stride * op.w_out % w64) % w64
          + (x + op.padding - k2) / op.stride) % w64
        = (b * (op.chan_out * op.h_out * op.w_out) + o * (op.h_out * op.w_out)
          + (y + op.padding - k1) / op.stride * op.w_out
          + (x + op.padding - k2) / op.stride) % w64 := by
      simp [Nat.mul_mod, Nat.add_mod]
    rw [hmod]
    have hflat : b * (op.chan_out * op.h_out * op.w_out)
        + o * (op.h_out * op.w_out)
        + (y + op.padding - k1) / op.stride * op.w_out
        + (x + op.padding - k2) / op.stride < imageOutNumel op := by
      unfold imageOutNumel
      rw [← flat4_offset]
      exact flat4_lt op.batch op.chan_out op.h_out op.w_out _ _ _ _
        hblt holt (by omega) (by omega)
    exact Nat.mod_eq_of_lt (by omega)

/-- Counterexample to C8 as stated: at the geometry `opC8` the total patch
element count is 8 — representable in any machine width — yet at thread 7
(coordinate `(0,1,0,0,1,1)`, source pixel `(1,1)` of the `2^32 × 2^32`
image) the exact source offset is `2^64 + 2^32 + 1` while the `size_t`
computation wraps to `2^32 + 1`: the source offsets do not agree with the
exact values for every geometry whose patch element count is
representable. -/
theorem unfold_machine_offset_overflow :
    patchesNumelFwd opC8 = 8 ∧
    unfold_input_write opC8 7 = some (2 ^ 64 + 2 ^ 32 + 1) ∧
    unfold_input_write_m opC8 7 = some (2 ^ 32 + 1) ∧
    unfold_input_write_m opC8 7 ≠ unfold_input_write opC8 7 :=
  ⟨by decide, by decide, by decide, by decide⟩

/-- C8 (amended): the mod/divide decomposition of the 32-bit thread index
is exact as long as the index itself fits its width, and the `size_t`
computation of element counts and source offsets agrees with the exact
(unbounded) integer values provided — beyond the patch element counts being
representable in 64 bits — the source tensors' element counts and the
coordinate expressions `h_out·stride + kernel`, `w_out·stride + kernel`,
`h_in + padding`, `w_in + padding` also fit in 64 bits; under those bounds
both unfold kernels behave identically at machine width and at exact
width. -/
theorem unfold_machine_width_agrees (op : Conv2DOp) (i : Nat)
    (hi : i < w32)
    (hfw : patchesNumelFwd op < w64) (hbw : patchesNumelBwd op < w64)
    (hyf : op.h_out * op.stride + op.kernel ≤ w64)
    (hxf : op.w_out * op.stride + op.kernel ≤ w64)
    (himg : imageNumel op ≤ w64)
    (hyb : op.h_in + op.padding ≤ w64)
    (hxb : op.w_in + op.padding ≤ w64)
    (hout : imageOutNumel op ≤ w64) :
    unfold_input_write_m op i = unfold_input_write op i ∧
    unfold_output_write_m op i = unfold_output_write op i :=
  ⟨unfold_input_machine_agree op i hi hfw hyf hxf himg,
   unfold_output_machine_agree op i hi hbw hyb hxb hout⟩

/-- Witness for `unfold_machine_width_agrees` at the geometry `opEx` and
thread 80. -/
theorem unfold_machine_width_agrees_witness :
    unfold_input_write_m opEx 80 = unfold_input_write opEx 80 ∧
    unfold_output_write_m opEx 80 = unfold_output_write opEx 80 :=
  unfold_machine_width_agrees opEx 80 (by decide) (by decide) (by decide)
    (by decide) (by decide) (by decide) (by decide) (by decide) (by decide)

end Conv2D
